import Mathlib

/-!
Verification of the bulk content-ingestion pipeline of this repository:
the sliding-window chunker, the manifest-driven per-file processing with
checksum skip logic, the resume controller, the embed/upsert batchers,
the deterministic vector-point ids, and the bounded website crawler.

Texts are modelled as lists of characters, file bytes as lists of
naturals, and the external primitives (content hash, PDF text extraction,
the embedding service, the vector index, the document-add sink) as
explicit function parameters gathered in an environment record, so that
every definition stays executable.
-/

set_option maxRecDepth 100000

namespace Rag

/-! ## Chunker (splitIntoChunks from bulk-pdf-ingest.js and the service) -/

/-- Whitespace as recognized by the JS String trim used in the chunker. -/
def isJsWs (c : Char) : Bool :=
  c = ' ' || c = '\t' || c = '\n' || c = '\r' || c = '\x0b' || c = '\x0c'

/-- JS String.trim on a character list: strip whitespace at both ends. -/
def jsTrim (l : List Char) : List Char :=
  ((l.dropWhile isJsWs).reverse.dropWhile isJsWs).reverse

/-- JS text.slice(start, e) for 0 <= start <= e <= length. -/
def slice (text : List Char) (start e : Nat) : List Char :=
  (text.drop start).take (e - start)

/-- The while loop of splitIntoChunks, fuel-indexed.  Each iteration takes
the window text[start, min(start+size, len)), trims it, emits it when
non-empty, stops when the window reached the end of the text, and
otherwise advances start to end - overlap (Nat subtraction is the clamp
to zero of the source).  Fuel exhaustion with the loop still running
yields none. -/
def chunksGo (text : List Char) (size overlap : Nat) :
    Nat → Nat → Option (List (List Char))
  | 0, start => if text.length ≤ start then some [] else none
  | fuel + 1, start =>
    if text.length ≤ start then some []
    else
      let e := min (start + size) text.length
      let c := jsTrim (slice text start e)
      if e = text.length then some (if c = [] then [] else [c])
      else
        (chunksGo text size overlap fuel (e - overlap)).map
          (fun rest => if c = [] then rest else c :: rest)

/-- splitIntoChunks(text, size, overlap): run the loop from offset 0.
For overlap < size a fuel of text.length + 1 is sufficient (proved
below), so the default answers the loop result. -/
def splitIntoChunks (text : List Char) (size overlap : Nat) : List (List Char) :=
  (chunksGo text size overlap (text.length + 1) 0).getD []

/-- The same loop recording only the window boundaries (start, end). -/
def windowsGo (len size overlap : Nat) : Nat → Nat → Option (List (Nat × Nat))
  | 0, start => if len ≤ start then some [] else none
  | fuel + 1, start =>
    if len ≤ start then some []
    else
      let e := min (start + size) len
      if e = len then some [(start, e)]
      else
        (windowsGo len size overlap fuel (e - overlap)).map
          (fun ws => (start, e) :: ws)

/-- Window boundaries visited by splitIntoChunks on a text of length len. -/
def chunkWindows (len size overlap : Nat) : List (Nat × Nat) :=
  (windowsGo len size overlap (len + 1) 0).getD []

theorem chunksGo_eq_windowsGo (text : List Char) (size overlap : Nat) :
    ∀ fuel start,
      chunksGo text size overlap fuel start =
        (windowsGo text.length size overlap fuel start).map
          (fun ws =>
            (ws.map (fun w => jsTrim (slice text w.1 w.2))).filter
              (fun c => decide (c ≠ []))) := by
  intro fuel
  induction fuel with
  | zero =>
    intro start
    simp only [chunksGo, windowsGo]
    by_cases h : text.length ≤ start <;> simp [h]
  | succ fuel ih =>
    intro start
    simp only [chunksGo, windowsGo]
    by_cases h : text.length ≤ start
    · simp [h]
    · simp only [h, if_false]
      by_cases he : min (start + size) text.length = text.length
      · simp only [he, if_true, Option.map_some]
        by_cases hc : jsTrim (slice text start (min (start + size) text.length)) = []
        · simp [hc, List.filter_cons]
        · simp [hc, List.filter_cons]
      · simp only [he, if_false, ih]
        cases hw : windowsGo text.length size overlap fuel
            (min (start + size) text.length - overlap) with
        | none => simp [hw]
        | some ws =>
          by_cases hc : jsTrim (slice text start (min (start + size) text.length)) = []
          · simp [hc, List.filter_cons]
          · simp [hc, List.filter_cons]

theorem windowsGo_isSome (len size overlap : Nat) (hlt : overlap < size) :
    ∀ fuel start, len ≤ start + fuel * (size - overlap) →
      (windowsGo len size overlap fuel start).isSome := by
  intro fuel
  induction fuel with
  | zero =>
    intro start h
    simp only [Nat.zero_mul, Nat.add_zero] at h
    simp [windowsGo, h]
  | succ fuel ih =>
    intro start h
    simp only [windowsGo]
    by_cases hs : len ≤ start
    · simp [hs]
    · simp only [hs, if_false]
      by_cases he : min (start + size) len = len
      · simp [he]
      · have hlt2 : start + size < len := by
          rcases Nat.lt_or_ge (start + size) len with h1 | h1
          · exact h1
          · exact absurd (Nat.min_eq_right h1) he
        have hmin : min (start + size) len = start + size :=
          Nat.min_eq_left (Nat.le_of_lt hlt2)
        simp only [he, if_false, hmin]
        have hexp : (fuel + 1) * (size - overlap) =
            fuel * (size - overlap) + (size - overlap) := by ring
        have := ih (start + size - overlap) (by omega)
        rcases Option.isSome_iff_exists.mp this with ⟨ws, hws⟩
        simp [hws, Nat.ne_of_lt hlt2]

theorem windowsGo_mono (len size overlap : Nat) :
    ∀ fuel fuel' start r, fuel ≤ fuel' →
      windowsGo len size overlap fuel start = some r →
      windowsGo len size overlap fuel' start = some r := by
  intro fuel
  induction fuel with
  | zero =>
    intro fuel' start r _ h0
    have hs : len ≤ start := by
      by_contra hs
      simp only [windowsGo] at h0
      simp [hs] at h0
    have hr : r = [] := by
      simp only [windowsGo, hs, if_true, Option.some.injEq] at h0
      exact h0.symm
    subst hr
    cases fuel' <;> simp [windowsGo, hs]
  | succ fuel ih =>
    intro fuel' start r hle h0
    cases fuel' with
    | zero => omega
    | succ fuel' =>
      simp only [windowsGo] at h0 ⊢
      by_cases hs : len ≤ start
      · simpa [hs] using h0
      · simp only [hs, if_false] at h0 ⊢
        by_cases he : min (start + size) len = len
        · simpa [he] using h0
        · simp only [he, if_false] at h0 ⊢
          cases hw : windowsGo len size overlap fuel (min (start + size) len - overlap) with
          | none => simp [hw] at h0
          | some ws =>
            rw [ih fuel' _ ws (by omega) hw]
            simpa [hw] using h0

theorem chunksGo_isSome (text : List Char) (size overlap : Nat)
    (hlt : overlap < size) :
    ∀ fuel, text.length ≤ fuel → (chunksGo text size overlap fuel 0).isSome := by
  intro fuel hf
  rw [chunksGo_eq_windowsGo]
  have hbound : text.length ≤ 0 + fuel * (size - overlap) := by
    have h1 : 1 ≤ size - overlap := by omega
    calc text.length ≤ fuel := hf
      _ ≤ fuel * (size - overlap) := Nat.le_mul_of_pos_right fuel (by omega)
      _ = 0 + fuel * (size - overlap) := by omega
  rcases Option.isSome_iff_exists.mp
    (windowsGo_isSome text.length size overlap hlt fuel 0 hbound) with ⟨ws, hws⟩
  simp [hws]

theorem chunksGo_fuel_agnostic (text : List Char) (size overlap : Nat)
    (hlt : overlap < size) :
    ∀ fuel fuel', text.length ≤ fuel → text.length ≤ fuel' →
      chunksGo text size overlap fuel 0 = chunksGo text size overlap fuel' 0 := by
  intro fuel fuel' hf hf'
  have hbound : ∀ g, text.length ≤ g → ∃ ws,
      windowsGo text.length size overlap g 0 = some ws := by
    intro g hg
    apply Option.isSome_iff_exists.mp
    apply windowsGo_isSome text.length size overlap hlt
    have h1 : 1 ≤ size - overlap := by omega
    calc text.length ≤ g := hg
      _ ≤ g * (size - overlap) := Nat.le_mul_of_pos_right g (by omega)
      _ = 0 + g * (size - overlap) := by omega
  rcases hbound text.length le_rfl with ⟨ws, hws⟩
  have e1 := windowsGo_mono text.length size overlap text.length fuel 0 ws hf hws
  have e2 := windowsGo_mono text.length size overlap text.length fuel' 0 ws hf' hws
  rw [chunksGo_eq_windowsGo, chunksGo_eq_windowsGo, e1, e2]

theorem splitIntoChunks_mem_nonempty (text : List Char) (size overlap : Nat) :
    ∀ c ∈ splitIntoChunks text size overlap, c ≠ [] := by
  intro c hc
  unfold splitIntoChunks at hc
  rw [chunksGo_eq_windowsGo] at hc
  cases hw : windowsGo text.length size overlap (text.length + 1) 0 with
  | none => simp [hw] at hc
  | some ws =>
    rw [hw] at hc
    simp only [Option.map_some', Option.getD_some] at hc
    have := List.of_mem_filter hc
    simpa using this

/-- C5: the chunker starts at offset 0, repeatedly takes the window
text[start, min(start+size, len)), trims whitespace, emits the window if
non-empty, stops if the window reached the end of the text, and otherwise
advances start to end - overlap clamped to be non-negative; for every
1205-character input with size 500 and overlap 200 the window boundaries
are exactly [0,500), [300,800), [600,1100), [900,1205), yielding 4 chunks
when each trimmed window is non-empty. -/
theorem splitIntoChunks_1205_windows (text : List Char) (h : text.length = 1205) :
    chunkWindows 1205 500 200 = [(0, 500), (300, 800), (600, 1100), (900, 1205)] ∧
    ((∀ w ∈ chunkWindows 1205 500 200, jsTrim (slice text w.1 w.2) ≠ []) →
      (splitIntoChunks text 500 200).length = 4) := by
  have hws : windowsGo 1205 500 200 1206 0 =
      some [(0, 500), (300, 800), (600, 1100), (900, 1205)] := by decide
  have hcw : chunkWindows 1205 500 200 =
      [(0, 500), (300, 800), (600, 1100), (900, 1205)] := by
    unfold chunkWindows
    rw [hws]
    rfl
  refine ⟨hcw, fun hall => ?_⟩
  unfold splitIntoChunks
  rw [chunksGo_eq_windowsGo, h, hws]
  simp only [Option.map_some', Option.getD_some]
  rw [List.filter_eq_self.mpr]
  · simp
  · intro a ha
    rcases List.mem_map.mp ha with ⟨w, hw, rfl⟩
    have := hall w (by rw [hcw]; exact hw)
    simpa using this

theorem splitIntoChunks_1205_windows_witness :
    (List.replicate 1205 'a').length = 1205 ∧
    (splitIntoChunks (List.replicate 1205 'a') 500 200).length = 4 :=
  ⟨by simp,
   (splitIntoChunks_1205_windows (List.replicate 1205 'a') (by simp)).2 (by decide)⟩

/-- C9: for every input text and chunk size S > 0 and overlap O < S, the
chunking loop terminates (a fuel of text length plus one suffices), the
chunk sequence does not depend on the fuel beyond that bound (it is a
deterministic function of text, S and O alone), and every emitted chunk
is non-empty after trimming. -/
theorem chunker_terminates_deterministic (text : List Char) (S O : Nat)
    (hS : 0 < S) (hO : O < S) :
    (chunksGo text S O (text.length + 1) 0).isSome ∧
    (∀ f g, text.length ≤ f → text.length ≤ g →
      chunksGo text S O f 0 = chunksGo text S O g 0) ∧
    ∀ c ∈ splitIntoChunks text S O, c ≠ [] :=
  ⟨chunksGo_isSome text S O hO (text.length + 1) (by omega),
   fun f g hf hg => chunksGo_fuel_agnostic text S O hO f g hf hg,
   splitIntoChunks_mem_nonempty text S O⟩

theorem chunker_terminates_deterministic_witness :
    0 < 2 ∧ 1 < 2 ∧ (chunksGo ['a', 'b'] 2 1 3 0).isSome :=
  ⟨by decide, by decide,
   (chunker_terminates_deterministic ['a', 'b'] 2 1 (by decide) (by decide)).1⟩

/-! ## Manifest store and per-file processing (BulkPdfService in the
backend service; the standalone script mirrors the same logic) -/

/-- Manifest entry status column. -/
inductive Status
  | queued
  | processing
  | completed
  | error
deriving DecidableEq, Repr

/-- A bulk_files manifest row: checksum, status, error, chunks_count,
updated_at.  Checksums and timestamps are abstracted as naturals. -/
structure Entry where
  checksum : Nat
  status : Status
  error : Option String
  chunks_count : Nat
  updated_at : Nat
deriving DecidableEq, Repr

/-- File paths are modelled as lists of components; path.normalize is the
identity on this representation and path.dirname drops the last
component. -/
abbrev FilePath' : Type := List String

abbrev Manifest : Type := List (FilePath' × Entry)

/-- SELECT from bulk_files WHERE path = ?. -/
def lookupEntry (m : Manifest) (p : FilePath') : Option Entry :=
  (m.find? (fun r => decide (r.1 = p))).map (fun r => r.2)

/-- INSERT ... ON CONFLICT(path) DO UPDATE on a table where path is the
primary key: replace the row carrying that key in place, appending when
the key is new. -/
def upsertEntry : Manifest → FilePath' → Entry → Manifest
  | [], p, e => [(p, e)]
  | r :: m, p, e => if r.1 = p then (p, e) :: m else r :: upsertEntry m p e

def queuedEntry (checksum now : Nat) : Entry :=
  ⟨checksum, Status.queued, none, 0, now⟩

def processingEntry (checksum now : Nat) : Entry :=
  ⟨checksum, Status.processing, none, 0, now⟩

def errorEntry (checksum : Nat) (msg : String) (now : Nat) : Entry :=
  ⟨checksum, Status.error, some msg, 0, now⟩

def completedEntry (checksum count now : Nat) : Entry :=
  ⟨checksum, Status.completed, none, count, now⟩

/-- Metadata attached to each chunk document by the service path. -/
structure DocMeta where
  source : FilePath'
  chunk_index : Nat
  file_type : String
  total_chunks : Nat
deriving DecidableEq, Repr

/-- A document handed to the vector store by the service path: page
content plus metadata, and nothing else (in particular no point id). -/
structure Document where
  pageContent : List Char
  metadata : DocMeta
deriving DecidableEq, Repr

/-- chunks.map((chunk, index) => ({pageContent, metadata})). -/
def mkDocuments (p : FilePath') (chunks : List (List Char)) : List Document :=
  chunks.enum.map (fun ic => ⟨ic.2, ⟨p, ic.1, "pdf", chunks.length⟩⟩)

/-- External collaborators of the pipeline, abstracted as explicit
functions: the file system, the recursive *.pdf glob result, the content
hash, PDF text extraction (error value for a throwing or empty parse),
and the document-add sink (some msg when the embedding or upsert call
behind addDocuments throws with that message), plus the configured chunk
and batch sizes. -/
structure Env where
  fs : FilePath' → List Nat
  fsFiles : List FilePath'
  sha256 : List Nat → Nat
  parsePdf : List Nat → Except String (List Char)
  sink : List Document → Option String
  chunkSize : Nat
  chunkOverlap : Nat
  embedBatchSize : Nat

/-- The slicing loop for (let i = 0; i < len; i += n) slice(i, i + n).
Call sites always pass a positive batch size; for n = 0 (where the JS
loop would not advance) the whole list is returned as one batch. -/
def batchList (n : Nat) (l : List α) : List (List α) :=
  if l.isEmpty then [] else
    if n = 0 then [l]
    else l.take n :: batchList n (l.drop n)
termination_by l.length
decreasing_by
  simp only [List.length_drop]
  rename_i h hn
  have hl : l ≠ [] := by simpa using h
  have : l.length ≠ 0 := fun h0 => hl (List.eq_nil_of_length_eq_zero h0)
  omega

/-- The per-file batching loop: add document batches to the vector store
until one external call fails; returns the grown store and the error
message of the failing call, if any. -/
def addDocBatches (env : Env) : List Document → List (List Document) →
    List Document × Option String
  | vec, [] => (vec, none)
  | vec, b :: bs =>
    match env.sink b with
    | some msg => (vec, some msg)
    | none => addDocBatches env (vec ++ b) bs

/-- Terminal outcome of processFile for one path. -/
inductive FileResult
  | skipped (chunks : Nat)
  | ok (chunks : Nat)
  | failed (msg : String)
deriving DecidableEq, Repr

/-- existing && existing.status === completed && existing.checksum ===
checksum. -/
def shouldSkip (existing : Option Entry) (checksum : Nat) : Bool :=
  match existing with
  | some e => decide (e.status = Status.completed) && decide (e.checksum = checksum)
  | none => false

/-- data.text.replace of CRLF by LF, global. -/
def replaceCrLf : List Char → List Char
  | [] => []
  | '\r' :: '\n' :: rest => '\n' :: replaceCrLf rest
  | c :: rest => c :: replaceCrLf rest

/-- BulkPdfService.processFile: recompute the checksum, fast-skip a
completed unchanged entry, otherwise mark queued then processing, extract
text, chunk it, push the chunk documents to the vector store in batches,
and record completed or error.  The vector store contents are threaded as
a document list. -/
def processFile (env : Env) (now : Nat) (m : Manifest) (vec : List Document)
    (p : FilePath') : Manifest × List Document × FileResult :=
  let checksum := env.sha256 (env.fs p)
  let existing := lookupEntry m p
  if shouldSkip existing checksum then
    (m, vec, FileResult.skipped ((existing.map Entry.chunks_count).getD 0))
  else
    let m1 := upsertEntry m p (queuedEntry checksum now)
    let m2 := upsertEntry m1 p (processingEntry checksum now)
    match env.parsePdf (env.fs p) with
    | Except.error msg =>
      (upsertEntry m2 p (errorEntry checksum msg now), vec, FileResult.failed msg)
    | Except.ok raw =>
      if jsTrim raw = [] then
        (upsertEntry m2 p (errorEntry checksum "No text extracted from PDF" now),
         vec, FileResult.failed "No text extracted from PDF")
      else
        let chunks := splitIntoChunks (jsTrim (replaceCrLf raw))
          env.chunkSize env.chunkOverlap
        match addDocBatches env vec (batchList env.embedBatchSize (mkDocuments p chunks)) with
        | (vec2, some msg) =>
          (upsertEntry m2 p (errorEntry checksum msg now), vec2, FileResult.failed msg)
        | (vec2, none) =>
          (upsertEntry m2 p (completedEntry checksum chunks.length now),
           vec2, FileResult.ok chunks.length)

/-- processDirectory runs the per-file pipeline over the discovered
files.  The worker pool admits tasks in discovery order and each manifest
key is owned by exactly one task, so the run is modelled sequentially in
discovery order; the vector store and manifest are threaded through. -/
def runFiles (env : Env) (now : Nat) :
    Manifest → List Document → List FilePath' →
      Manifest × List Document × List (FilePath' × FileResult)
  | m, vec, [] => (m, vec, [])
  | m, vec, p :: ps =>
    let r := processFile env now m vec p
    let rest := runFiles env now r.1 r.2.1 ps
    (rest.1, rest.2.1, (p, r.2.2) :: rest.2.2)

/-- The fast-glob of '**/*.pdf' under pdfDir: the pdf files of the file
system whose path extends the directory. -/
def filesUnder (fsFiles : List FilePath') (root : FilePath') : List FilePath' :=
  fsFiles.filter (fun p => root.isPrefixOf p)

/-- BulkPdfService.processDirectory: glob the directory, throw (none)
when no PDF file is found, otherwise run every discovered file. -/
def processDirectory (env : Env) (now : Nat) (m : Manifest) (vec : List Document)
    (root : FilePath') :
    Manifest × List Document × Option (List (FilePath' × FileResult)) :=
  let files := filesUnder env.fsFiles root
  if files.isEmpty then (m, vec, none)
  else
    let r := runFiles env now m vec files
    (r.1, r.2.1, some r.2.2)

/-- getPendingFiles: SELECT path FROM bulk_files WHERE status IN
(queued, processing). -/
def getPendingFiles (m : Manifest) : List FilePath' :=
  (m.filter (fun r =>
    decide (r.2.status = Status.queued) || decide (r.2.status = Status.processing))).map
    (fun r => r.1)

/-- The reset statement of resumeProcessing: UPDATE bulk_files SET
status = queued, error = NULL, updated_at = ? WHERE status IN
(queued, processing). -/
def resetPending (m : Manifest) (now : Nat) : Manifest :=
  m.map (fun r =>
    if r.2.status = Status.queued ∨ r.2.status = Status.processing then
      (r.1, { r.2 with status := Status.queued, error := none, updated_at := now })
    else r)

/-- BulkPdfService.resumeProcessing: read the pending (queued or
processing) paths; when there are none, return without touching anything;
otherwise reset those rows to queued and reprocess the directory derived
as the parent directory of the first pending path. -/
def resumeProcessing (env : Env) (now : Nat) (m : Manifest) (vec : List Document) :
    Manifest × List Document × Option (List (FilePath' × FileResult)) :=
  match getPendingFiles m with
  | [] => (m, vec, none)
  | p0 :: _ => processDirectory env now (resetPending m now) vec p0.dropLast

/-! ## Manifest lemmas -/

theorem lookupEntry_nil (p : FilePath') : lookupEntry [] p = none := rfl

theorem lookupEntry_upsert_self (m : Manifest) (p : FilePath') (e : Entry) :
    lookupEntry (upsertEntry m p e) p = some e := by
  induction m with
  | nil => simp [upsertEntry, lookupEntry, List.find?]
  | cons r m ih =>
    by_cases hr : r.1 = p
    · simp [upsertEntry, hr, lookupEntry, List.find?]
    · simp only [upsertEntry, hr, if_false]
      unfold lookupEntry at ih ⊢
      simp only [List.find?_cons, decide_eq_false hr]
      exact ih

theorem lookupEntry_upsert_ne (m : Manifest) (p q : FilePath') (e : Entry)
    (h : q ≠ p) : lookupEntry (upsertEntry m p e) q = lookupEntry m q := by
  have hpq : ¬(p = q) := fun hh => h hh.symm
  induction m with
  | nil =>
    simp [upsertEntry, lookupEntry, List.find?, decide_eq_false hpq]
  | cons r m ih =>
    by_cases hr : r.1 = p
    · simp only [upsertEntry, hr, if_true]
      unfold lookupEntry
      have h2 : ¬(r.1 = q) := by rw [hr]; exact hpq
      simp [List.find?_cons, decide_eq_false hpq, decide_eq_false h2]
    · simp only [upsertEntry, hr, if_false]
      unfold lookupEntry at ih ⊢
      by_cases hq : r.1 = q
      · simp [List.find?_cons, hq]
      · simp only [List.find?_cons, decide_eq_false hq]
        exact ih

theorem shouldSkip_of_mismatch (e : Entry) (c : Nat) (h : e.checksum ≠ c) :
    shouldSkip (some e) c = false := by
  simp [shouldSkip, h]

theorem processFile_skip (env : Env) (now : Nat) (m : Manifest)
    (vec : List Document) (p : FilePath') (e : Entry)
    (he : lookupEntry m p = some e) (hst : e.status = Status.completed)
    (hck : e.checksum = env.sha256 (env.fs p)) :
    processFile env now m vec p = (m, vec, FileResult.skipped e.chunks_count) := by
  unfold processFile
  simp [he, shouldSkip, hst, hck]

theorem processFile_noskip (env : Env) (now : Nat) (m : Manifest)
    (vec : List Document) (p : FilePath')
    (h : shouldSkip (lookupEntry m p) (env.sha256 (env.fs p)) = false) :
    (∀ k, (processFile env now m vec p).2.2 ≠ FileResult.skipped k) ∧
    (∃ e', lookupEntry (processFile env now m vec p).1 p = some e' ∧
      e'.checksum = env.sha256 (env.fs p) ∧
      (e'.status = Status.completed ∨ e'.status = Status.error)) := by
  unfold processFile
  simp only [h, Bool.false_eq_true, if_false]
  cases hp : env.parsePdf (env.fs p) with
  | error msg => simp [lookupEntry_upsert_self, errorEntry]
  | ok raw =>
    by_cases ht : jsTrim raw = []
    · simp [ht, lookupEntry_upsert_self, errorEntry]
    · simp only [ht, if_false]
      cases hab : addDocBatches env vec (batchList env.embedBatchSize
          (mkDocuments p (splitIntoChunks (jsTrim (replaceCrLf raw))
            env.chunkSize env.chunkOverlap))) with
      | mk vec2 res =>
        cases res with
        | none => simp [hab, lookupEntry_upsert_self, completedEntry]
        | some msg => simp [hab, lookupEntry_upsert_self, errorEntry]

theorem runFiles_all_skipped (env : Env) (now : Nat) :
    ∀ files (m : Manifest) (vec : List Document),
      (∀ p ∈ files, ∃ e, lookupEntry m p = some e ∧
        e.status = Status.completed ∧ e.checksum = env.sha256 (env.fs p)) →
      runFiles env now m vec files =
        (m, vec, files.map (fun p =>
          (p, FileResult.skipped (((lookupEntry m p).map Entry.chunks_count).getD 0)))) := by
  intro files
  induction files with
  | nil => intro m vec _; rfl
  | cons p ps ih =>
    intro m vec hall
    rcases hall p (List.mem_cons_self p ps) with ⟨e, he, hst, hck⟩
    have hstep := processFile_skip env now m vec p e he hst hck
    simp only [runFiles, hstep]
    rw [ih m vec (fun q hq => hall q (List.mem_cons_of_mem p hq))]
    simp [he]

/-- C4: a manifest entry with status completed and a recorded checksum
equal to the recomputed one makes processFile a no-op returning skipped
(no manifest write, no document added to the vector store); an entry with
status completed but a differing recomputed checksum is not skipped and
is reprocessed, the fresh checksum being recorded under a terminal
completed or error status; consequently a run over files that all satisfy
the unchanged-completed condition leaves manifest and vector store
unchanged and resolves every item skipped. -/
theorem completed_unchanged_skip (env : Env) (now : Nat) :
    (∀ (m : Manifest) (vec : List Document) (p : FilePath') (e : Entry),
      lookupEntry m p = some e → e.status = Status.completed →
      e.checksum = env.sha256 (env.fs p) →
      processFile env now m vec p = (m, vec, FileResult.skipped e.chunks_count)) ∧
    (∀ (m : Manifest) (vec : List Document) (p : FilePath') (e : Entry),
      lookupEntry m p = some e → e.status = Status.completed →
      e.checksum ≠ env.sha256 (env.fs p) →
      (∀ k, (processFile env now m vec p).2.2 ≠ FileResult.skipped k) ∧
      (∃ e', lookupEntry (processFile env now m vec p).1 p = some e' ∧
        e'.checksum = env.sha256 (env.fs p) ∧
        (e'.status = Status.completed ∨ e'.status = Status.error))) ∧
    (∀ files (m : Manifest) (vec : List Document),
      (∀ p ∈ files, ∃ e, lookupEntry m p = some e ∧
        e.status = Status.completed ∧ e.checksum = env.sha256 (env.fs p)) →
      runFiles env now m vec files =
        (m, vec, files.map (fun p =>
          (p, FileResult.skipped (((lookupEntry m p).map Entry.chunks_count).getD 0))))) := by
  refine ⟨fun m vec p e he hst hck => processFile_skip env now m vec p e he hst hck,
    fun m vec p e he hst hck => ?_,
    runFiles_all_skipped env now⟩
  apply processFile_noskip
  rw [he]
  exact shouldSkip_of_mismatch e _ hck

/-- A concrete environment for witnesses: one file of bytes [1], content
hash the sum of the bytes, extraction yielding the single character x,
an always-succeeding document sink, and the default configuration. -/
def envW : Env where
  fs := fun _ => [1]
  fsFiles := [["docs", "a.pdf"]]
  sha256 := fun bytes => bytes.sum
  parsePdf := fun _ => Except.ok ['x']
  sink := fun _ => none
  chunkSize := 500
  chunkOverlap := 200
  embedBatchSize := 128

theorem completed_unchanged_skip_witness :
    lookupEntry [(["docs", "a.pdf"], completedEntry 1 3 0)] ["docs", "a.pdf"] =
      some (completedEntry 1 3 0) ∧
    processFile envW 0 [(["docs", "a.pdf"], completedEntry 1 3 0)] [] ["docs", "a.pdf"] =
      ([(["docs", "a.pdf"], completedEntry 1 3 0)], [], FileResult.skipped 3) :=
  ⟨by decide,
   (completed_unchanged_skip envW 0).1 [(["docs", "a.pdf"], completedEntry 1 3 0)] []
     ["docs", "a.pdf"] (completedEntry 1 3 0) (by decide) rfl (by decide)⟩

/-- C1 counterexample: a manifest holding one entry with status error.
getPendingFiles selects only queued and processing rows, so resume
returns without resetting or re-admitting anything and the entry still
has status error afterwards, contradicting the claim that resume
re-queues every entry with status in queued, processing, error. -/
theorem resume_error_entry_counterexample :
    getPendingFiles [(["docs", "b.pdf"], errorEntry 5 "boom" 0)] = [] ∧
    resumeProcessing envW 1 [(["docs", "b.pdf"], errorEntry 5 "boom" 0)] [] =
      ([(["docs", "b.pdf"], errorEntry 5 "boom" 0)], [], none) ∧
    (lookupEntry (resumeProcessing envW 1
        [(["docs", "b.pdf"], errorEntry 5 "boom" 0)] []).1
      ["docs", "b.pdf"]).map Entry.status = some Status.error :=
  ⟨by decide, by decide, by decide⟩

/-- C1 (amended): resume re-queues exactly the entries with status in
queued, processing: those are reset to queued with the error column
cleared, while completed and error rows pass through the reset untouched;
and when no queued or processing entry exists, resume does nothing at all
(even if error entries exist). -/
theorem resume_requeues_pending_only (env : Env) (now : Nat) (m : Manifest)
    (vec : List Document) :
    (getPendingFiles m = [] → resumeProcessing env now m vec = (m, vec, none)) ∧
    (∀ p e, (p, e) ∈ m →
      ((e.status = Status.queued ∨ e.status = Status.processing) →
        (p, { e with status := Status.queued, error := none, updated_at := now }) ∈
          resetPending m now) ∧
      ((e.status = Status.completed ∨ e.status = Status.error) →
        (p, e) ∈ resetPending m now)) := by
  constructor
  · intro h
    unfold resumeProcessing
    rw [h]
  · intro p e hm
    constructor
    · intro hst
      unfold resetPending
      refine List.mem_map.mpr ⟨(p, e), hm, ?_⟩
      simp [hst]
    · intro hst
      unfold resetPending
      refine List.mem_map.mpr ⟨(p, e), hm, ?_⟩
      rcases hst with h1 | h1 <;> simp [h1]

theorem resume_requeues_pending_only_witness :
    (["b"], errorEntry 2 "x" 0) ∈
      resetPending [(["a"], queuedEntry 1 0), (["b"], errorEntry 2 "x" 0)] 9 :=
  ((resume_requeues_pending_only envW 9
      [(["a"], queuedEntry 1 0), (["b"], errorEntry 2 "x" 0)] []).2
    ["b"] (errorEntry 2 "x" 0) (by decide)).2 (Or.inr rfl)

theorem runFiles_fst (env : Env) (now : Nat) :
    ∀ files (m : Manifest) (vec : List Document),
      ((runFiles env now m vec files).2.2).map Prod.fst = files := by
  intro files
  induction files with
  | nil => intro m vec; rfl
  | cons p ps ih =>
    intro m vec
    simp only [runFiles, List.map_cons]
    rw [ih]

/-- C3: when resume finds a non-empty pending set, the directory it
re-scans is the parent directory of the first pending path: resume
reduces to processDirectory on that root, the processed file set is
exactly the glob under that root, and a pending path that does not lie
under that root is not in the re-scanned set. -/
theorem resume_scope_from_first_pending (env : Env) (now : Nat) (m : Manifest)
    (vec : List Document) (p0 : FilePath') (rest : List FilePath')
    (h : getPendingFiles m = p0 :: rest) :
    resumeProcessing env now m vec =
      processDirectory env now (resetPending m now) vec p0.dropLast ∧
    (∀ res, (processDirectory env now (resetPending m now) vec p0.dropLast).2.2 =
        some res → res.map Prod.fst = filesUnder env.fsFiles p0.dropLast) ∧
    (∀ q ∈ getPendingFiles m, (p0.dropLast).isPrefixOf q = false →
      q ∉ filesUnder env.fsFiles p0.dropLast) := by
  refine ⟨?_, ?_, ?_⟩
  · unfold resumeProcessing
    rw [h]
  · intro res hres
    unfold processDirectory at hres
    by_cases hf : (filesUnder env.fsFiles p0.dropLast).isEmpty
    · simp [hf] at hres
    · simp only [hf, Bool.false_eq_true, if_false, Option.some.injEq] at hres
      rw [← hres]
      exact runFiles_fst env now _ _ _
  · intro q _ hq hmem
    unfold filesUnder at hmem
    have := List.of_mem_filter hmem
    rw [hq] at this
    exact Bool.false_ne_true this

theorem resume_scope_from_first_pending_witness :
    getPendingFiles [(["docs", "a.pdf"], queuedEntry 1 0)] = [["docs", "a.pdf"]] ∧
    resumeProcessing envW 2 [(["docs", "a.pdf"], queuedEntry 1 0)] [] =
      processDirectory envW 2
        (resetPending [(["docs", "a.pdf"], queuedEntry 1 0)] 2) []
        (["docs", "a.pdf"].dropLast) :=
  ⟨by decide,
   (resume_scope_from_first_pending envW 2 [(["docs", "a.pdf"], queuedEntry 1 0)] []
     ["docs", "a.pdf"] [] (by decide)).1⟩

/-! ## Failure isolation -/

/-- The terminal result the pipeline assigns to one path, as a function
of that path and the environment alone (processFile starting from an
empty manifest and empty vector store). -/
def itemResult (env : Env) (now : Nat) (p : FilePath') : FileResult :=
  (processFile env now [] [] p).2.2

/-- The manifest entry the pipeline leaves for one path, again a function
of that path and the environment alone. -/
def itemEntry (env : Env) (now : Nat) (p : FilePath') : Option Entry :=
  lookupEntry (processFile env now [] [] p).1 p

def FileResult.isOk : FileResult → Bool
  | FileResult.ok _ => true
  | _ => false

def FileResult.isFailed : FileResult → Bool
  | FileResult.failed _ => true
  | _ => false

theorem addDocBatches_snd (env : Env) :
    ∀ bs (vec vec' : List Document),
      (addDocBatches env vec bs).2 = (addDocBatches env vec' bs).2 := by
  intro bs
  induction bs with
  | nil => intro vec vec'; rfl
  | cons b bs ih =>
    intro vec vec'
    simp only [addDocBatches]
    cases env.sink b with
    | some msg => rfl
    | none => exact ih _ _

theorem processFile_other_key (env : Env) (now : Nat) (m : Manifest)
    (vec : List Document) (p q : FilePath') (h : q ≠ p) :
    lookupEntry (processFile env now m vec p).1 q = lookupEntry m q := by
  unfold processFile
  by_cases hs : shouldSkip (lookupEntry m p) (env.sha256 (env.fs p))
  · simp [hs]
  · simp only [Bool.not_eq_true] at hs
    simp only [hs, Bool.false_eq_true, if_false]
    cases hp : env.parsePdf (env.fs p) with
    | error msg => simp [lookupEntry_upsert_ne _ _ _ _ h]
    | ok raw =>
      by_cases ht : jsTrim raw = []
      · simp [ht, lookupEntry_upsert_ne _ _ _ _ h]
      · simp only [ht, if_false]
        cases hab : addDocBatches env vec (batchList env.embedBatchSize
            (mkDocuments p (splitIntoChunks (jsTrim (replaceCrLf raw))
              env.chunkSize env.chunkOverlap))) with
        | mk vec2 res =>
          cases res with
          | none => simp [lookupEntry_upsert_ne _ _ _ _ h]
          | some msg => simp [lookupEntry_upsert_ne _ _ _ _ h]

theorem processFile_indep (env : Env) (now : Nat) (m : Manifest)
    (vec : List Document) (p : FilePath') (h : lookupEntry m p = none) :
    (processFile env now m vec p).2.2 = itemResult env now p ∧
    lookupEntry (processFile env now m vec p).1 p = itemEntry env now p := by
  unfold itemResult itemEntry processFile
  simp only [h, lookupEntry_nil, shouldSkip, Bool.false_eq_true, if_false]
  cases hp : env.parsePdf (env.fs p) with
  | error msg => simp [lookupEntry_upsert_self]
  | ok raw =>
    by_cases ht : jsTrim raw = []
    · simp [ht, lookupEntry_upsert_self]
    · simp only [ht, if_false]
      have hsnd := addDocBatches_snd env (batchList env.embedBatchSize
          (mkDocuments p (splitIntoChunks (jsTrim (replaceCrLf raw))
            env.chunkSize env.chunkOverlap))) vec []
      cases hab : addDocBatches env vec (batchList env.embedBatchSize
          (mkDocuments p (splitIntoChunks (jsTrim (replaceCrLf raw))
            env.chunkSize env.chunkOverlap))) with
      | mk vec2 res =>
        cases hab0 : addDocBatches env [] (batchList env.embedBatchSize
            (mkDocuments p (splitIntoChunks (jsTrim (replaceCrLf raw))
              env.chunkSize env.chunkOverlap))) with
        | mk vec0 res0 =>
          rw [hab, hab0] at hsnd
          simp only at hsnd
          subst hsnd
          cases res with
          | none => simp [lookupEntry_upsert_self]
          | some msg => simp [lookupEntry_upsert_self]

theorem runFiles_untouched (env : Env) (now : Nat) :
    ∀ files (m : Manifest) (vec : List Document) (q : FilePath'), q ∉ files →
      lookupEntry (runFiles env now m vec files).1 q = lookupEntry m q := by
  intro files
  induction files with
  | nil => intro m vec q _; rfl
  | cons p ps ih =>
    intro m vec q hq
    simp only [runFiles]
    rw [ih _ _ q (fun hmem => hq (List.mem_cons_of_mem p hmem))]
    exact processFile_other_key env now m vec p q
      (fun he => hq (he ▸ List.mem_cons_self p ps))

theorem runFiles_map_item (env : Env) (now : Nat) :
    ∀ files (m : Manifest) (vec : List Document), files.Nodup →
      (∀ p ∈ files, lookupEntry m p = none) →
      (runFiles env now m vec files).2.2 =
        files.map (fun p => (p, itemResult env now p)) ∧
      ∀ p ∈ files, lookupEntry (runFiles env now m vec files).1 p =
        itemEntry env now p := by
  intro files
  induction files with
  | nil =>
    intro m vec _ _
    exact ⟨rfl, by intro p hp; cases hp⟩
  | cons p ps ih =>
    intro m vec hnd hnone
    have hp0 : lookupEntry m p = none := hnone p (List.mem_cons_self p ps)
    have hindep := processFile_indep env now m vec p hp0
    have hndps : ps.Nodup := (List.nodup_cons.mp hnd).2
    have hpps : p ∉ ps := (List.nodup_cons.mp hnd).1
    have hnone' : ∀ q ∈ ps, lookupEntry (processFile env now m vec p).1 q = none := by
      intro q hq
      rw [processFile_other_key env now m vec p q (fun he => hpps (he ▸ hq))]
      exact hnone q (List.mem_cons_of_mem p hq)
    have IH := ih (processFile env now m vec p).1 (processFile env now m vec p).2.1
      hndps hnone'
    constructor
    · simp only [runFiles, List.map_cons]
      rw [IH.1, hindep.1]
    · intro q hq
      rcases List.mem_cons.mp hq with rfl | hq'
      · simp only [runFiles]
        rw [runFiles_untouched env now ps _ _ q hpps]
        exact hindep.2
      · simp only [runFiles]
        exact IH.2 q hq'

theorem itemResult_terminal (env : Env) (now : Nat) (p : FilePath') :
    (∀ msg, itemResult env now p = FileResult.failed msg →
      ∃ e, itemEntry env now p = some e ∧ e.status = Status.error ∧
        e.error = some msg) ∧
    (∀ k, itemResult env now p = FileResult.ok k →
      ∃ e, itemEntry env now p = some e ∧ e.status = Status.completed ∧
        e.chunks_count = k) := by
  unfold itemResult itemEntry processFile
  simp only [lookupEntry_nil, shouldSkip, Bool.false_eq_true, if_false]
  cases hp : env.parsePdf (env.fs p) with
  | error msg =>
    constructor
    · intro msg' hmsg
      injection hmsg with hm
      refine ⟨errorEntry (env.sha256 (env.fs p)) msg now, ?_, rfl, ?_⟩
      · simp [lookupEntry_upsert_self]
      · simp [errorEntry, hm]
    · intro k hk
      exact FileResult.noConfusion hk
  | ok raw =>
    by_cases ht : jsTrim raw = []
    · simp only [ht, if_true]
      constructor
      · intro msg' hmsg
        injection hmsg with hm
        refine ⟨errorEntry (env.sha256 (env.fs p)) "No text extracted from PDF" now,
          ?_, rfl, ?_⟩
        · simp [lookupEntry_upsert_self]
        · simp [errorEntry, hm]
      · intro k hk
        exact FileResult.noConfusion hk
    · simp only [ht, if_false]
      cases hab : addDocBatches env [] (batchList env.embedBatchSize
          (mkDocuments p (splitIntoChunks (jsTrim (replaceCrLf raw))
            env.chunkSize env.chunkOverlap))) with
      | mk vec0 res =>
        cases res with
        | some msg =>
          constructor
          · intro msg' hmsg
            injection hmsg with hm
            refine ⟨errorEntry (env.sha256 (env.fs p)) msg now, ?_, rfl, ?_⟩
            · simp [lookupEntry_upsert_self]
            · simp [errorEntry, hm]
          · intro k hk
            exact FileResult.noConfusion hk
        | none =>
          constructor
          · intro msg' hmsg
            exact FileResult.noConfusion hmsg
          · intro k hk
            injection hk with hm
            refine ⟨completedEntry (env.sha256 (env.fs p))
              (splitIntoChunks (jsTrim (replaceCrLf raw))
                env.chunkSize env.chunkOverlap).length now, ?_, rfl, ?_⟩
            · simp [lookupEntry_upsert_self]
            · simp [completedEntry, hm]

/-- C7: per-item failures are isolated.  Over a run on distinct paths the
result list is the pointwise image of a per-item outcome function, so no
item's outcome depends on any other item; the final manifest entry of
every item is likewise a function of that item alone; an item whose
pipeline throws is recorded with status error and its message, an item
whose pipeline succeeds with status completed; and the completed and
errored tallies are exactly the counts of pipeline-succeeding and
pipeline-failing items. -/
theorem failure_isolation (env : Env) (now : Nat) (files : List FilePath')
    (hnd : files.Nodup) :
    (runFiles env now [] [] files).2.2 =
      files.map (fun p => (p, itemResult env now p)) ∧
    (∀ p ∈ files, lookupEntry (runFiles env now [] [] files).1 p =
      itemEntry env now p) ∧
    (∀ p msg, itemResult env now p = FileResult.failed msg →
      ∃ e, itemEntry env now p = some e ∧ e.status = Status.error ∧
        e.error = some msg) ∧
    (∀ p k, itemResult env now p = FileResult.ok k →
      ∃ e, itemEntry env now p = some e ∧ e.status = Status.completed ∧
        e.chunks_count = k) ∧
    (runFiles env now [] [] files).2.2.countP (fun pr => FileResult.isFailed pr.2) =
      files.countP (fun p => FileResult.isFailed (itemResult env now p)) ∧
    (runFiles env now [] [] files).2.2.countP (fun pr => FileResult.isOk pr.2) =
      files.countP (fun p => FileResult.isOk (itemResult env now p)) := by
  have hmain := runFiles_map_item env now files [] [] hnd (fun p _ => rfl)
  refine ⟨hmain.1, hmain.2, fun p msg h => (itemResult_terminal env now p).1 msg h,
    fun p k h => (itemResult_terminal env now p).2 k h, ?_, ?_⟩
  · rw [hmain.1, List.countP_map]
    rfl
  · rw [hmain.1, List.countP_map]
    rfl

/-- Environment with one valid and one corrupt file: extraction throws on
the file whose bytes are [0]. -/
def envW2 : Env where
  fs := fun p => if p = ["bad.pdf"] then [0] else [1]
  fsFiles := [["good.pdf"], ["bad.pdf"]]
  sha256 := fun bytes => bytes.sum
  parsePdf := fun bytes => if bytes = [0] then Except.error "corrupt" else Except.ok ['x']
  sink := fun _ => none
  chunkSize := 500
  chunkOverlap := 200
  embedBatchSize := 128

theorem failure_isolation_witness :
    ([["good.pdf"], ["bad.pdf"]] : List FilePath').Nodup ∧
    (runFiles envW2 0 [] [] [["good.pdf"], ["bad.pdf"]]).2.2 =
      ([["good.pdf"], ["bad.pdf"]] : List FilePath').map
        (fun p => (p, itemResult envW2 0 p)) :=
  ⟨by decide, (failure_isolation envW2 0 [["good.pdf"], ["bad.pdf"]] (by decide)).1⟩

/-! ## Vector point ids: standalone script versus service path -/

/-- Payload of a point built by the standalone bulk script. -/
structure PointPayload where
  source : String
  chunk_index : Nat
  text : List Char
  file_type : String
  total_chunks : Nat
deriving DecidableEq, Repr

/-- A point sent to the vector index by the standalone script: an id, the
embedding vector for the chunk (possibly absent, as JS indexing yields
undefined past the end), and the payload. -/
structure VectorPoint (V : Type) where
  id : String
  vector : Option V
  payload : PointPayload
deriving DecidableEq, Repr

/-- crypto sha1 hex digest of "path|idx"; the hash itself is an external
primitive passed as a parameter. -/
def mkPointId (sha1hex : String → String) (src : String) (idx : Nat) : String :=
  sha1hex (src ++ "|" ++ toString idx)

/-- The points construction of processFile in the standalone script:
chunks.map((chunk, idx) to (id, vector: vectors[idx], payload)). -/
def mkPoints (sha1hex : String → String) (src : String)
    (chunks : List (List Char)) (vectors : List V) : List (VectorPoint V) :=
  chunks.enum.map (fun ic =>
    ⟨mkPointId sha1hex src ic.1, vectors.get? ic.1,
     ⟨src, ic.1, ic.2, "pdf", chunks.length⟩⟩)

/-- Does the vector index already hold a point with this id. -/
def hasId (store : List (VectorPoint V)) (i : String) : Bool :=
  store.any (fun q => decide (q.id = i))

/-- Qdrant upsert of one point: insert-or-replace keyed by the point id. -/
def upsertPoint (store : List (VectorPoint V)) (pt : VectorPoint V) :
    List (VectorPoint V) :=
  if store.any (fun q => decide (q.id = pt.id)) then
    store.map (fun q => if q.id = pt.id then pt else q)
  else store ++ [pt]

/-- Qdrant upsert of a batch of points, point by point. -/
def upsertPoints (store : List (VectorPoint V)) :
    List (VectorPoint V) → List (VectorPoint V)
  | [] => store
  | pt :: pts => upsertPoints (upsertPoint store pt) pts

theorem hasId_upsertPoint_mono (store : List (VectorPoint V))
    (pt : VectorPoint V) (i : String) (h : hasId store i = true) :
    hasId (upsertPoint store pt) i = true := by
  unfold upsertPoint
  rcases List.any_eq_true.mp h with ⟨q, hq, hqi⟩
  by_cases hp : store.any (fun r => decide (r.id = pt.id))
  · simp only [hp, if_true]
    apply List.any_eq_true.mpr
    by_cases hqp : q.id = pt.id
    · refine ⟨pt, List.mem_map.mpr ⟨q, hq, by simp [hqp]⟩, ?_⟩
      simp only [decide_eq_true_eq] at hqi ⊢
      rw [← hqp]
      exact hqi
    · exact ⟨q, List.mem_map.mpr ⟨q, hq, by simp [hqp]⟩, hqi⟩
  · simp only [hp, Bool.false_eq_true, if_false]
    apply List.any_eq_true.mpr
    exact ⟨q, List.mem_append_left _ hq, hqi⟩

theorem hasId_upsertPoint_self (store : List (VectorPoint V))
    (pt : VectorPoint V) : hasId (upsertPoint store pt) pt.id = true := by
  unfold upsertPoint
  by_cases hp : store.any (fun r => decide (r.id = pt.id))
  · simp only [hp, if_true]
    rcases List.any_eq_true.mp hp with ⟨q, hq, hqi⟩
    apply List.any_eq_true.mpr
    refine ⟨pt, List.mem_map.mpr ⟨q, hq, by simp [of_decide_eq_true hqi]⟩, by simp⟩
  · simp only [hp, Bool.false_eq_true, if_false]
    apply List.any_eq_true.mpr
    exact ⟨pt, List.mem_append_right _ (List.mem_singleton_self pt), by simp⟩

theorem upsertPoint_length_of_hasId (store : List (VectorPoint V))
    (pt : VectorPoint V) (h : hasId store pt.id = true) :
    (upsertPoint store pt).length = store.length := by
  unfold upsertPoint
  unfold hasId at h
  simp [h]

theorem hasId_upsertPoints_mono (i : String) :
    ∀ (pts store : List (VectorPoint V)), hasId store i = true →
      hasId (upsertPoints store pts) i = true := by
  intro pts
  induction pts with
  | nil => intro store h; exact h
  | cons pt pts ih =>
    intro store h
    exact ih _ (hasId_upsertPoint_mono store pt i h)

theorem hasId_upsertPoints_all :
    ∀ (pts store : List (VectorPoint V)) (pt : VectorPoint V), pt ∈ pts →
      hasId (upsertPoints store pts) pt.id = true := by
  intro pts
  induction pts with
  | nil => intro store pt h; cases h
  | cons q pts ih =>
    intro store pt h
    rcases List.mem_cons.mp h with rfl | h'
    · exact hasId_upsertPoints_mono pt.id pts _ (hasId_upsertPoint_self store pt)
    · exact ih _ pt h'

theorem upsertPoints_length_of_all :
    ∀ (pts store : List (VectorPoint V)),
      (∀ pt ∈ pts, hasId store pt.id = true) →
      (upsertPoints store pts).length = store.length := by
  intro pts
  induction pts with
  | nil => intro store _; rfl
  | cons pt pts ih =>
    intro store hall
    have h0 := hall pt (List.mem_cons_self pt pts)
    simp only [upsertPoints]
    rw [ih _ (fun q hq => hasId_upsertPoint_mono store pt q.id
      (hall q (List.mem_cons_of_mem pt hq)))]
    exact upsertPoint_length_of_hasId store pt h0

theorem mkPoints_map_id (sha1hex : String → String) (src : String)
    (chunks : List (List Char)) (vecs : List V) :
    (mkPoints sha1hex src chunks vecs).map VectorPoint.id =
      (List.range chunks.length).map (mkPointId sha1hex src) := by
  unfold mkPoints
  rw [List.map_map]
  rw [show (VectorPoint.id ∘ fun ic : Nat × List Char =>
      (⟨mkPointId sha1hex src ic.1, vecs.get? ic.1,
        ⟨src, ic.1, ic.2, "pdf", chunks.length⟩⟩ : VectorPoint V)) =
      (mkPointId sha1hex src) ∘ Prod.fst from rfl]
  rw [← List.map_map, List.enum_map_fst]

/-- Modelled from the spec: the service path hands its chunk documents to
the generic document-add sink of the external vector store (addDocuments)
without any point id — the Document record carries only pageContent and
metadata — so the id each stored point receives is chosen by the external
sink, not by this repository.  The sink is modelled as stamping each
incoming document with a fresh id drawn from a counter, the observable
behaviour of an id-generating sink. -/
def addDocumentsAssignIds (store : List (Nat × Document)) (ctr : Nat)
    (docs : List Document) : List (Nat × Document) × Nat :=
  (store ++ docs.enum.map (fun ic => (ctr + ic.1, ic.2)), ctr + docs.length)

/-- C2 counterexample: ingesting the same single-chunk source twice
through the service path.  The documents passed to the sink carry no id,
the sink assigns fresh ids, and after re-ingestion the store holds two
points with the same (source, chunk index) under different ids: on this
ingestion path the point id is not a deterministic hash of
(source id, chunk index) and re-ingestion duplicates instead of
overwriting. -/
theorem service_path_no_point_id_counterexample :
    mkDocuments ["a.pdf"] [['h', 'i']] =
      [⟨['h', 'i'], ⟨["a.pdf"], 0, "pdf", 1⟩⟩] ∧
    (addDocumentsAssignIds
      (addDocumentsAssignIds [] 0 (mkDocuments ["a.pdf"] [['h', 'i']])).1
      (addDocumentsAssignIds [] 0 (mkDocuments ["a.pdf"] [['h', 'i']])).2
      (mkDocuments ["a.pdf"] [['h', 'i']])).1.map Prod.fst = [0, 1] ∧
    (addDocumentsAssignIds
      (addDocumentsAssignIds [] 0 (mkDocuments ["a.pdf"] [['h', 'i']])).1
      (addDocumentsAssignIds [] 0 (mkDocuments ["a.pdf"] [['h', 'i']])).2
      (mkDocuments ["a.pdf"] [['h', 'i']])).1.map
        (fun r => (r.2.metadata.source, r.2.metadata.chunk_index)) =
      [(["a.pdf"], 0), (["a.pdf"], 0)] :=
  ⟨rfl, rfl, rfl⟩

/-- C2 (amended): in the standalone bulk script, the point id is the
deterministic sha1 hash of (source path, chunk index): the id list
depends only on the source and the chunk count, so reprocessing the same
source produces the same ids for the same chunk indices, and re-upserting
points under existing ids replaces them without growing the index.  The
BulkPdfService path instead passes id-less documents to the external
addDocuments sink, so that path provides no id determinism (see the
counterexample). -/
theorem standalone_point_ids_deterministic (sha1hex : String → String)
    (src : String) :
    (∀ (chunks chunks' : List (List Char)) (vecs vecs' : List (List Int)),
      chunks.length = chunks'.length →
      (mkPoints sha1hex src chunks vecs).map VectorPoint.id =
        (mkPoints sha1hex src chunks' vecs').map VectorPoint.id) ∧
    (∀ (chunks : List (List Char)) (vecs : List (List Int)),
      (mkPoints sha1hex src chunks vecs).map VectorPoint.id =
        (List.range chunks.length).map (mkPointId sha1hex src)) ∧
    (∀ (store pts : List (VectorPoint (List Int))),
      (upsertPoints (upsertPoints store pts) pts).length =
        (upsertPoints store pts).length) := by
  refine ⟨fun chunks chunks' vecs vecs' hlen => ?_,
    fun chunks vecs => mkPoints_map_id sha1hex src chunks vecs, ?_⟩
  · rw [mkPoints_map_id, mkPoints_map_id, hlen]
  · intro store pts
    exact upsertPoints_length_of_all pts (upsertPoints store pts)
      (fun pt hpt => hasId_upsertPoints_all pts store pt hpt)

theorem standalone_point_ids_deterministic_witness :
    ([['a'], ['b']] : List (List Char)).length = ([['c'], ['d']] : List (List Char)).length ∧
    (mkPoints (fun s => s) "x.pdf" [['a'], ['b']] ([] : List (List Int))).map VectorPoint.id =
      (mkPoints (fun s => s) "x.pdf" [['c'], ['d']] ([] : List (List Int))).map VectorPoint.id :=
  ⟨rfl,
   (standalone_point_ids_deterministic (fun s => s) "x.pdf").1
     [['a'], ['b']] [['c'], ['d']] [] [] rfl⟩

/-! ## Retry policy of the embed and upsert batchers (standalone script) -/

/-- The backoff delay before retry n of the p-retry configuration used by
embedBatch: factor 2, minTimeout 1000, maxTimeout 10000 (the random
jitter factor is ignored). -/
def retryDelay (attempt : Nat) : Nat := min 10000 (1000 * 2 ^ attempt)

/-- pRetry(op, retries): run the operation, passing the attempt number;
after a failure, retry while retries remain. -/
def pRetryRun (op : Nat → Except String α) : Nat → Nat → Except String α
  | attempt, 0 => op attempt
  | attempt, retriesLeft + 1 =>
    match op attempt with
    | Except.ok a => Except.ok a
    | Except.error _ => pRetryRun op (attempt + 1) retriesLeft

/-- embedBatch wraps embeddings.embedDocuments in pRetry with retries 5. -/
def embedBatchAttempts (op : Nat → Except String α) : Except String α :=
  pRetryRun op 0 5

/-- upsertBatch calls qdrant.upsert once with no retry wrapper; a throw
propagates to the caller at once. -/
def upsertBatchAttempts (op : Nat → Except String α) : Except String α :=
  op 0

theorem pRetryRun_ok (op : Nat → Except String α) :
    ∀ (retriesLeft attempt k : Nat) (a : α), k ≤ retriesLeft →
      (∀ m, m < k → ∃ e, op (attempt + m) = Except.error e) →
      op (attempt + k) = Except.ok a →
      pRetryRun op attempt retriesLeft = Except.ok a := by
  intro retriesLeft
  induction retriesLeft with
  | zero =>
    intro attempt k a hk _ hok
    have : k = 0 := by omega
    subst this
    simpa using hok
  | succ r ih =>
    intro attempt k a hk hfail hok
    cases k with
    | zero =>
      simp only [Nat.add_zero] at hok
      simp [pRetryRun, hok]
    | succ k =>
      rcases hfail 0 (by omega) with ⟨e, he⟩
      simp only [Nat.add_zero] at he
      simp only [pRetryRun, he]
      apply ih (attempt + 1) k a (by omega)
      · intro m hm
        rcases hfail (m + 1) (by omega) with ⟨e', he'⟩
        exact ⟨e', by rw [show attempt + 1 + m = attempt + (m + 1) by omega]; exact he'⟩
      · rw [show attempt + 1 + k = attempt + (k + 1) by omega]
        exact hok

theorem batchList_join (n : Nat) (hn : 0 < n) :
    ∀ (len : Nat) (l : List α), l.length ≤ len → (batchList n l).flatten = l := by
  intro len
  induction len with
  | zero =>
    intro l hl
    have h0 : l = [] := List.eq_nil_of_length_eq_zero (by omega)
    subst h0
    simp [batchList]
  | succ len ih =>
    intro l hl
    rw [batchList]
    by_cases he : l.isEmpty
    · have h0 : l = [] := by simpa using he
      subst h0
      simp
    · have hn0 : ¬(n = 0) := by omega
      simp only [he, Bool.false_eq_true, if_false, hn0]
      have hpos : 0 < l.length := by
        have : l ≠ [] := by simpa using he
        exact List.length_pos.mpr this
      have hlen : (l.drop n).length ≤ len := by
        simp only [List.length_drop]
        omega
      rw [List.flatten_cons, ih (l.drop n) hlen, List.take_append_drop]

theorem batchList_sizes (n : Nat) (hn : 0 < n) :
    ∀ (len : Nat) (l : List α), l.length ≤ len →
      ∀ b ∈ batchList n l, b.length ≤ n ∧ b ≠ [] := by
  intro len
  induction len with
  | zero =>
    intro l hl b hb
    have h0 : l = [] := List.eq_nil_of_length_eq_zero (by omega)
    subst h0
    simp [batchList] at hb
  | succ len ih =>
    intro l hl b hb
    rw [batchList] at hb
    by_cases he : l.isEmpty
    · simp [he] at hb
    · have hn0 : ¬(n = 0) := by omega
      simp only [he, Bool.false_eq_true, if_false, hn0] at hb
      have hpos : 0 < l.length := by
        have : l ≠ [] := by simpa using he
        exact List.length_pos.mpr this
      rcases List.mem_cons.mp hb with rfl | hb'
      · refine ⟨?_, ?_⟩
        · simp only [List.length_take]
          omega
        · apply List.length_pos.mp
          simp only [List.length_take]
          omega
      · have hlen : (l.drop n).length ≤ len := by
          simp only [List.length_drop]
          omega
        exact ih (l.drop n) hlen b hb'

/-- C6 counterexample: an external call failing on its first attempt and
succeeding on every later one.  The embedding batcher retries and ends
with success, but the upsert batcher performs a single attempt and fails
immediately: upsertBatch does not share the retry-with-backoff policy of
embedBatch, and an upsert failure marks the item error without any retry
budget being consumed. -/
theorem upsert_no_retry_counterexample :
    embedBatchAttempts (fun n => if n = 0 then Except.error "transient"
      else Except.ok 42) = Except.ok 42 ∧
    upsertBatchAttempts (fun n => if n = 0 then Except.error "transient"
      else Except.ok 42) = Except.error "transient" :=
  ⟨rfl, rfl⟩

/-- C6 (amended): the upsert batcher does group points into batches of
the configured size (batches concatenate back to the input, each
non-empty and of at most the configured size), but each batch is sent in
a single attempt with no retry, a failure propagating immediately; only
the embedding batcher is wrapped in retry, with 5 retries after the first
attempt, delay min(10000, 1000 * 2^n) before retry n (doubling until the
cap), returning the first success among attempts 0..5. -/
theorem upsert_single_attempt_embed_retries :
    (∀ (l : List (VectorPoint (List Int))) (n : Nat), 0 < n →
      (batchList n l).flatten = l ∧ ∀ b ∈ batchList n l, b.length ≤ n ∧ b ≠ []) ∧
    (∀ (op : Nat → Except String (List Int)), upsertBatchAttempts op = op 0) ∧
    (∀ (op : Nat → Except String (List Int)) (a : List Int) (k : Nat), k ≤ 5 →
      (∀ m, m < k → ∃ e, op m = Except.error e) → op k = Except.ok a →
      embedBatchAttempts op = Except.ok a) ∧
    (∀ n, retryDelay (n + 1) = min 10000 (2 * retryDelay n) ∨
      retryDelay n = 10000) := by
  refine ⟨fun l n hn => ⟨batchList_join n hn l.length l le_rfl,
      batchList_sizes n hn l.length l le_rfl⟩,
    fun op => rfl, fun op a k hk hfail hok => ?_, fun n => ?_⟩
  · exact pRetryRun_ok op 5 0 k a hk (by simpa using hfail) (by simpa using hok)
  · rcases le_or_lt (1000 * 2 ^ n) 10000 with h | h
    · left
      unfold retryDelay
      rw [Nat.min_eq_right h, pow_succ]
      congr 1
      ring
    · right
      unfold retryDelay
      exact Nat.min_eq_left (Nat.le_of_lt h)

theorem upsert_single_attempt_embed_retries_witness :
    (0 : Nat) < 2 ∧
    (batchList 2 ([⟨"i", none, ⟨"s", 0, [], "pdf", 1⟩⟩] :
        List (VectorPoint (List Int)))).flatten =
      [⟨"i", none, ⟨"s", 0, [], "pdf", 1⟩⟩] :=
  ⟨by decide,
   (upsert_single_attempt_embed_retries.1
     [⟨"i", none, ⟨"s", 0, [], "pdf", 1⟩⟩] 2 (by decide)).1⟩

/-! ## Website crawler (WebsiteCrawler in ingestionQueue.js) -/

/-- A parsed URL as the WHATWG URL object exposes it: protocol,
hostname, pathname, search, fragment.  Anchors extracted from a page are
modelled as already-resolved URLs; the relative-href branches of
extractInternalLinks resolve against the base domain and so always yield
a URL whose hostname is the base domain. -/
structure Url where
  protocol : String
  hostname : String
  pathname : String
  search : String
  fragment : String
deriving DecidableEq, Repr

/-- The full href string of a URL, as pushed for the seed. -/
def urlString (u : Url) : String :=
  u.protocol ++ "//" ++ u.hostname ++ u.pathname ++ u.search ++ u.fragment

/-- The canonical form used for the visited-set comparison:
protocol//hostname+pathname, fragments and query strings stripped. -/
def cleanUrl (u : Url) : String :=
  u.protocol ++ "//" ++ u.hostname ++ u.pathname

/-- A fetched page: its outbound anchors.  (Title and extracted text play
no role in the crawl frontier logic.) -/
structure Page where
  links : List Url
deriving DecidableEq, Repr

/-- The reachable web, as a finite map from fetchable URL strings to
pages; absence means the fetch fails (timeout, HTTP error). -/
abbrev Web : Type := List (String × Page)

def fetchPage (web : Web) (u : String) : Option Page :=
  (web.find? (fun r => decide (r.1 = u))).map (fun r => r.2)

/-- JS Set.add on the insertion-ordered model of a set. -/
def addToSet (s : List String) (x : String) : List String :=
  if x ∈ s then s else s ++ [x]

/-- extractInternalLinks: keep anchors whose hostname equals the base
domain, canonicalize them, and collect them into a Set (first-insertion
order, deduplicated). -/
def extractInternalLinks (anchors : List Url) (baseDomain : String) : List String :=
  anchors.foldl (fun acc u =>
    if u.hostname = baseDomain then addToSet acc (cleanUrl u) else acc) []

/-- The hard page cap of the crawler (this.maxPages = 50). -/
def maxPages : Nat := 50

/-- State of one crawlWebsite invocation: the visited set and frontier
queue (instance fields of the crawler) and the successfully fetched pages
in order (allPages; pageCount is its length, the two being incremented in
lockstep by the source). -/
structure CrawlSt where
  visited : List String
  queue : List String
  pages : List String
deriving DecidableEq, Repr

/-- The link-discovery loop body: enqueue each link that is not yet
visited while the queue is shorter than the page cap, adding it to the
visited set at enqueue time. -/
def enqueueLinks (links : List String) (st : CrawlSt) : CrawlSt :=
  links.foldl (fun st l =>
    if l ∉ st.visited ∧ st.queue.length < maxPages then
      { st with queue := st.queue ++ [l], visited := st.visited ++ [l] }
    else st) st

/-- The main crawl loop, fuel-indexed: while the queue is non-empty and
fewer than maxPages pages have been processed, pop a URL, fetch it (a
failed fetch is logged and skipped), record the page and enqueue its
internal links.  Fuel exhaustion with the loop still running yields
none. -/
def crawlLoop (web : Web) (baseDomain : String) : Nat → CrawlSt → Option CrawlSt
  | 0, st =>
    if st.queue = [] ∨ maxPages ≤ st.pages.length then some st else none
  | fuel + 1, st =>
    if st.queue = [] ∨ maxPages ≤ st.pages.length then some st
    else
      match st.queue with
      | [] => none
      | u :: rest =>
        match fetchPage web u with
        | none => crawlLoop web baseDomain fuel { st with queue := rest }
        | some pg =>
          crawlLoop web baseDomain fuel
            (enqueueLinks (extractInternalLinks pg.links baseDomain)
              { visited := st.visited, queue := rest, pages := st.pages ++ [u] })

/-- Persistent fields of the module-level singleton crawler instance. -/
structure Crawler where
  visitedUrls : List String
  queue : List String
deriving DecidableEq, Repr

/-- new WebsiteCrawler(): empty visited set and queue. -/
def Crawler.init : Crawler := ⟨[], []⟩

/-- crawlWebsite(baseUrl): derive the base domain from the seed URL, push
the seed onto the instance queue and visited set (no visited check for
the seed), run the loop with fresh page counters, and return the updated
instance state together with the processed page list.  The instance
fields are never reset. -/
def crawlWebsite (web : Web) (fuel : Nat) (c : Crawler) (baseUrl : Url) :
    Option (Crawler × List String) :=
  (crawlLoop web baseUrl.hostname fuel
    { visited := addToSet c.visitedUrls (urlString baseUrl),
      queue := c.queue ++ [urlString baseUrl],
      pages := [] }).map (fun st => (⟨st.visited, st.queue⟩, st.pages))

/-- All canonical internal links appearing anywhere in the web: the
candidate set a crawl can ever enqueue beyond its seed. -/
def allCands (web : Web) (bd : String) : List String :=
  (web.map (fun r => extractInternalLinks r.2.links bd)).flatten

/-- Crawl termination measure: queue length plus twice the number of
candidate links not yet visited. -/
def mu (web : Web) (bd : String) (st : CrawlSt) : Nat :=
  st.queue.length + 2 * ((allCands web bd).toFinset \ st.visited.toFinset).card

theorem mem_addToSet (s : List String) (x l : String) (h : l ∈ addToSet s x) :
    l ∈ s ∨ l = x := by
  unfold addToSet at h
  by_cases hx : x ∈ s
  · simp only [hx, if_true] at h
    exact Or.inl h
  · simp only [hx, if_false] at h
    rcases List.mem_append.mp h with h1 | h1
    · exact Or.inl h1
    · exact Or.inr (List.mem_singleton.mp h1)

theorem mem_extractInternalLinks_aux (bd : String) :
    ∀ (anchors : List Url) (acc : List String),
      (∀ l ∈ acc, ∃ u : Url, u.hostname = bd ∧ l = cleanUrl u) →
      ∀ l ∈ anchors.foldl (fun acc u =>
          if u.hostname = bd then addToSet acc (cleanUrl u) else acc) acc,
        ∃ u : Url, u.hostname = bd ∧ l = cleanUrl u := by
  intro anchors
  induction anchors with
  | nil => intro acc hacc l hl; exact hacc l hl
  | cons a anchors ih =>
    intro acc hacc l hl
    simp only [List.foldl_cons] at hl
    by_cases ha : a.hostname = bd
    · refine ih (addToSet acc (cleanUrl a)) ?_ l (by simpa [ha] using hl)
      intro l' hl'
      rcases mem_addToSet acc (cleanUrl a) l' hl' with h1 | h1
      · exact hacc l' h1
      · exact ⟨a, ha, h1⟩
    · exact ih acc hacc l (by simpa [ha] using hl)

theorem mem_extractInternalLinks (anchors : List Url) (bd : String) :
    ∀ l ∈ extractInternalLinks anchors bd,
      ∃ u : Url, u.hostname = bd ∧ l = cleanUrl u := by
  intro l hl
  exact mem_extractInternalLinks_aux bd anchors [] (by intro l' hl'; cases hl') l hl

theorem fetchPage_mem (web : Web) (u : String) (pg : Page)
    (h : fetchPage web u = some pg) : ∃ r ∈ web, r.2 = pg := by
  unfold fetchPage at h
  cases hf : web.find? (fun r => decide (r.1 = u)) with
  | none => rw [hf] at h; cases h
  | some r =>
    rw [hf] at h
    refine ⟨r, List.mem_of_find?_eq_some hf, ?_⟩
    simpa using h

theorem links_sub_allCands (web : Web) (bd : String) (u : String) (pg : Page)
    (h : fetchPage web u = some pg) :
    ∀ l ∈ extractInternalLinks pg.links bd, l ∈ allCands web bd := by
  intro l hl
  rcases fetchPage_mem web u pg h with ⟨r, hr, hpg⟩
  unfold allCands
  apply List.mem_flatten.mpr
  refine ⟨extractInternalLinks r.2.links bd, List.mem_map.mpr ⟨r, hr, rfl⟩, ?_⟩
  rw [hpg]
  exact hl

theorem enqueueLinks_spec :
    ∀ (links : List String) (st : CrawlSt), ∃ new,
      (enqueueLinks links st).visited = st.visited ++ new ∧
      (enqueueLinks links st).queue = st.queue ++ new ∧
      (enqueueLinks links st).pages = st.pages ∧
      (∀ l ∈ new, l ∈ links) ∧
      new.Nodup ∧
      (∀ l ∈ new, l ∉ st.visited) := by
  intro links
  induction links with
  | nil =>
    intro st
    refine ⟨[], by simp [enqueueLinks], by simp [enqueueLinks],
      by simp [enqueueLinks], ?_, List.nodup_nil, ?_⟩
    · intro l hl
      cases hl
    · intro l hl
      cases hl
  | cons l ls ih =>
    intro st
    by_cases hc : l ∉ st.visited ∧ st.queue.length < maxPages
    · obtain ⟨new, h1, h2, h3, h4, h5, h6⟩ :=
        ih ⟨st.visited ++ [l], st.queue ++ [l], st.pages⟩
      have hstep : enqueueLinks (l :: ls) st =
          enqueueLinks ls ⟨st.visited ++ [l], st.queue ++ [l], st.pages⟩ := by
        simp only [enqueueLinks, List.foldl_cons]
        rw [if_pos hc]
      refine ⟨l :: new, ?_, ?_, ?_, ?_, ?_, ?_⟩
      · rw [hstep, h1]
        simp
      · rw [hstep, h2]
        simp
      · rw [hstep, h3]
      · intro x hx
        rcases List.mem_cons.mp hx with rfl | hx'
        · exact List.mem_cons_self _ _
        · exact List.mem_cons_of_mem l (h4 x hx')
      · refine List.nodup_cons.mpr ⟨?_, h5⟩
        intro hl
        have := h6 l hl
        simp at this
      · intro x hx
        rcases List.mem_cons.mp hx with rfl | hx'
        · exact hc.1
        · intro hmem
          exact h6 x hx' (List.mem_append_left _ hmem)
    · obtain ⟨new, h1, h2, h3, h4, h5, h6⟩ := ih st
      have hstep : enqueueLinks (l :: ls) st = enqueueLinks ls st := by
        simp only [enqueueLinks, List.foldl_cons]
        rw [if_neg hc]
      refine ⟨new, ?_, ?_, ?_, ?_, h5, h6⟩
      · rw [hstep, h1]
      · rw [hstep, h2]
      · rw [hstep, h3]
      · exact fun x hx => List.mem_cons_of_mem l (h4 x hx)

theorem mu_enqueueLinks (web : Web) (bd : String) (links : List String)
    (st : CrawlSt) (hsub : ∀ l ∈ links, l ∈ allCands web bd) :
    mu web bd (enqueueLinks links st) ≤ mu web bd st ∧
    (enqueueLinks links st).pages = st.pages := by
  obtain ⟨new, h1, h2, h3, h4, h5, h6⟩ := enqueueLinks_spec links st
  refine ⟨?_, h3⟩
  unfold mu
  rw [h1, h2]
  have hsubF : new.toFinset ⊆ (allCands web bd).toFinset \ st.visited.toFinset := by
    intro x hx
    rw [List.mem_toFinset] at hx
    rw [Finset.mem_sdiff, List.mem_toFinset, List.mem_toFinset]
    exact ⟨hsub x (h4 x hx), h6 x hx⟩
  have hset : (allCands web bd).toFinset \ (st.visited ++ new).toFinset =
      ((allCands web bd).toFinset \ st.visited.toFinset) \ new.toFinset := by
    ext x
    simp only [Finset.mem_sdiff, List.mem_toFinset, List.mem_append]
    tauto
  have hcard : ((allCands web bd).toFinset \ (st.visited ++ new).toFinset).card =
      ((allCands web bd).toFinset \ st.visited.toFinset).card - new.length := by
    rw [hset, Finset.card_sdiff hsubF, List.toFinset_card_of_nodup h5]
  have hlen : new.length ≤ ((allCands web bd).toFinset \ st.visited.toFinset).card := by
    calc new.length = new.toFinset.card := (List.toFinset_card_of_nodup h5).symm
      _ ≤ _ := Finset.card_le_card hsubF
  rw [List.length_append, hcard]
  omega

theorem mu_pop (web : Web) (bd : String) (u : String) (rest : List String)
    (v pg : List String) :
    mu web bd ⟨v, rest, pg⟩ + 1 = mu web bd ⟨v, u :: rest, pg⟩ := by
  unfold mu
  simp only [List.length_cons]
  omega

theorem crawlLoop_isSome (web : Web) (bd : String) :
    ∀ (fuel : Nat) (st : CrawlSt), mu web bd st ≤ fuel →
      (crawlLoop web bd fuel st).isSome := by
  intro fuel
  induction fuel with
  | zero =>
    intro st hmu
    unfold crawlLoop
    have hq : st.queue = [] := by
      have : st.queue.length = 0 := by
        unfold mu at hmu
        omega
      exact List.eq_nil_of_length_eq_zero this
    simp [hq]
  | succ fuel ih =>
    intro st hmu
    unfold crawlLoop
    by_cases hguard : st.queue = [] ∨ maxPages ≤ st.pages.length
    · simp [hguard]
    · simp only [hguard, if_false]
      push_neg at hguard
      cases hq : st.queue with
      | nil => exact absurd hq hguard.1
      | cons u rest =>
        have hst : st = ⟨st.visited, u :: rest, st.pages⟩ := by
          cases st
          simp_all
        have hmu1 : mu web bd ⟨st.visited, rest, st.pages⟩ ≤ fuel := by
          have := mu_pop web bd u rest st.visited st.pages
          rw [hst] at hmu
          omega
        cases hf : fetchPage web u with
        | none =>
          simp only [hf]
          exact ih _ hmu1
        | some pg =>
          simp only [hf]
          apply ih
          have hmu2 : mu web bd ⟨st.visited, rest, st.pages ++ [u]⟩ ≤ fuel := by
            have h3 : mu web bd ⟨st.visited, rest, st.pages ++ [u]⟩ =
                mu web bd ⟨st.visited, rest, st.pages⟩ := by
              unfold mu
              rfl
            omega
          have := mu_enqueueLinks web bd (extractInternalLinks pg.links bd)
            ⟨st.visited, rest, st.pages ++ [u]⟩
            (links_sub_allCands web bd u pg hf)
          omega

theorem crawlLoop_done (web : Web) (bd : String) (fuel : Nat) (st : CrawlSt)
    (h : st.queue = []) : crawlLoop web bd fuel st = some st := by
  cases fuel <;> simp [crawlLoop, h]

theorem crawlLoop_final (web : Web) (bd : String) :
    ∀ (fuel : Nat) (st st' : CrawlSt), crawlLoop web bd fuel st = some st' →
      st'.queue = [] ∨ maxPages ≤ st'.pages.length := by
  intro fuel
  induction fuel with
  | zero =>
    intro st st' h
    unfold crawlLoop at h
    by_cases hg : st.queue = [] ∨ maxPages ≤ st.pages.length
    · simp only [hg, if_true, Option.some.injEq] at h
      exact h ▸ hg
    · simp [hg] at h
  | succ fuel ih =>
    intro st st' h
    unfold crawlLoop at h
    by_cases hg : st.queue = [] ∨ maxPages ≤ st.pages.length
    · simp only [hg, if_true, Option.some.injEq] at h
      exact h ▸ hg
    · simp only [hg, if_false] at h
      push_neg at hg
      cases hq : st.queue with
      | nil => exact absurd hq hg.1
      | cons u rest =>
        rw [hq] at h
        cases hf : fetchPage web u with
        | none =>
          simp only [hf] at h
          exact ih _ _ h
        | some pg =>
          simp only [hf] at h
          exact ih _ _ h

theorem crawlLoop_preserve (web : Web) (bd : String) (P : CrawlSt → Prop)
    (hpop : ∀ v u rest pgs, P ⟨v, u :: rest, pgs⟩ → P ⟨v, rest, pgs⟩)
    (hstep : ∀ v u rest pgs page, fetchPage web u = some page →
      P ⟨v, u :: rest, pgs⟩ →
      P (enqueueLinks (extractInternalLinks page.links bd) ⟨v, rest, pgs ++ [u]⟩)) :
    ∀ (fuel : Nat) (st st' : CrawlSt), P st → crawlLoop web bd fuel st = some st' →
      P st' := by
  intro fuel
  induction fuel with
  | zero =>
    intro st st' hP h
    unfold crawlLoop at h
    by_cases hg : st.queue = [] ∨ maxPages ≤ st.pages.length
    · simp only [hg, if_true, Option.some.injEq] at h
      exact h ▸ hP
    · simp [hg] at h
  | succ fuel ih =>
    intro st st' hP h
    unfold crawlLoop at h
    by_cases hg : st.queue = [] ∨ maxPages ≤ st.pages.length
    · simp only [hg, if_true, Option.some.injEq] at h
      exact h ▸ hP
    · simp only [hg, if_false] at h
      push_neg at hg
      cases hq : st.queue with
      | nil => exact absurd hq hg.1
      | cons u rest =>
        rw [hq] at h
        have hst : st = ⟨st.visited, u :: rest, st.pages⟩ := by
          cases st
          simp_all
        cases hf : fetchPage web u with
        | none =>
          simp only [hf] at h
          exact ih _ _ (hpop st.visited u rest st.pages (hst ▸ hP)) h
        | some pg =>
          simp only [hf] at h
          exact ih _ _ (hstep st.visited u rest st.pages pg hf (hst ▸ hP)) h

/-- Structural invariant of the crawl loop state: no duplicate queue or
page entries, everything enqueued or processed is in the visited set, and
no processed page sits in the queue. -/
def InvSt (st : CrawlSt) : Prop :=
  st.queue.Nodup ∧ st.pages.Nodup ∧ (∀ x ∈ st.queue, x ∈ st.visited) ∧
  (∀ x ∈ st.pages, x ∈ st.visited) ∧ ∀ x ∈ st.pages, x ∉ st.queue

theorem InvSt_enqueueLinks (links : List String) (st : CrawlSt)
    (h : InvSt st) : InvSt (enqueueLinks links st) := by
  obtain ⟨hqn, hpn, hqv, hpv, hpq⟩ := h
  obtain ⟨new, h1, h2, h3, h4, h5, h6⟩ := enqueueLinks_spec links st
  refine ⟨?_, ?_, ?_, ?_, ?_⟩
  · rw [h2]
    rw [List.nodup_append]
    refine ⟨hqn, h5, ?_⟩
    intro x hx hx'
    exact h6 x hx' (hqv x hx)
  · rw [h3]
    exact hpn
  · intro x hx
    rw [h2] at hx
    rw [h1]
    rcases List.mem_append.mp hx with h' | h'
    · exact List.mem_append_left _ (hqv x h')
    · exact List.mem_append_right _ h'
  · intro x hx
    rw [h3] at hx
    rw [h1]
    exact List.mem_append_left _ (hpv x hx)
  · intro x hx
    rw [h3] at hx
    rw [h2]
    intro hmem
    rcases List.mem_append.mp hmem with h' | h'
    · exact hpq x hx h'
    · exact h6 x h' (hpv x hx)

theorem InvSt_pop (v : List String) (u : String) (rest pgs : List String)
    (h : InvSt ⟨v, u :: rest, pgs⟩) : InvSt ⟨v, rest, pgs⟩ := by
  obtain ⟨hqn, hpn, hqv, hpv, hpq⟩ := h
  refine ⟨(List.nodup_cons.mp hqn).2, hpn, ?_, hpv, ?_⟩
  · intro x hx
    exact hqv x (List.mem_cons_of_mem u hx)
  · intro x hx hx'
    exact hpq x hx (List.mem_cons_of_mem u hx')

theorem InvSt_fetch (v : List String) (u : String) (rest pgs : List String)
    (h : InvSt ⟨v, u :: rest, pgs⟩) : InvSt ⟨v, rest, pgs ++ [u]⟩ := by
  obtain ⟨hqn, hpn, hqv, hpv, hpq⟩ := h
  have hu : u ∈ v := hqv u (List.mem_cons_self u rest)
  have hur : u ∉ rest := (List.nodup_cons.mp hqn).1
  refine ⟨(List.nodup_cons.mp hqn).2, ?_, ?_, ?_, ?_⟩
  · rw [List.nodup_append]
    refine ⟨hpn, List.nodup_singleton u, ?_⟩
    intro x hx hx'
    rw [List.mem_singleton] at hx'
    subst hx'
    exact hpq x hx (List.mem_cons_self x rest)
  · intro x hx
    exact hqv x (List.mem_cons_of_mem u hx)
  · intro x hx
    rcases List.mem_append.mp hx with h' | h'
    · exact hpv x h'
    · rw [List.mem_singleton] at h'
      subst h'
      exact hu
  · intro x hx hx'
    rcases List.mem_append.mp hx with h' | h'
    · exact hpq x h' (List.mem_cons_of_mem u hx')
    · rw [List.mem_singleton] at h'
      subst h'
      exact hur hx'

/-- C8: starting from a fresh crawler, the crawl loop terminates (fuel
one plus twice the number of distinct canonical internal links in the web
suffices) with either an empty frontier or the hard cap of 50 processed
pages reached; the processed page list has no duplicates, so a page
reachable via two distinct link paths is fetched and counted exactly
once; and everything ever admitted to the visited set or the queue is
either the seed or the canonical form (query and fragment stripped) of a
link whose hostname equals the base domain: an external-domain URL is
never enqueued. -/
theorem crawler_bounded_dedup (web : Web) (baseUrl : Url) (fuel : Nat)
    (hfuel : 1 + 2 * (allCands web baseUrl.hostname).toFinset.card ≤ fuel) :
    ∃ c' pages, crawlWebsite web fuel Crawler.init baseUrl = some (c', pages) ∧
      (c'.queue = [] ∨ maxPages ≤ pages.length) ∧
      pages.Nodup ∧
      (∀ v, v ∈ c'.visitedUrls →
        v = urlString baseUrl ∨
          ∃ u : Url, u.hostname = baseUrl.hostname ∧ v = cleanUrl u) ∧
      (∀ v, v ∈ c'.queue →
        v = urlString baseUrl ∨
          ∃ u : Url, u.hostname = baseUrl.hostname ∧ v = cleanUrl u) := by
  have hmu : mu web baseUrl.hostname
      ⟨[urlString baseUrl], [urlString baseUrl], []⟩ ≤ fuel := by
    unfold mu
    simp only [List.length_cons, List.length_nil]
    have hs : ((allCands web baseUrl.hostname).toFinset \
        ([urlString baseUrl] : List String).toFinset).card ≤
        (allCands web baseUrl.hostname).toFinset.card :=
      Finset.card_le_card (Finset.sdiff_subset)
    omega
  obtain ⟨st', hst'⟩ := Option.isSome_iff_exists.mp
    (crawlLoop_isSome web baseUrl.hostname fuel _ hmu)
  have hstart : crawlWebsite web fuel Crawler.init baseUrl =
      (crawlLoop web baseUrl.hostname fuel
        ⟨[urlString baseUrl], [urlString baseUrl], []⟩).map
        (fun st => (⟨st.visited, st.queue⟩, st.pages)) := by
    unfold crawlWebsite Crawler.init
    simp [addToSet]
  have hw : crawlWebsite web fuel Crawler.init baseUrl =
      some (⟨st'.visited, st'.queue⟩, st'.pages) := by
    rw [hstart, hst']
    rfl
  have hinv : InvSt st' := by
    refine crawlLoop_preserve web baseUrl.hostname InvSt
      (fun v u rest pgs h => InvSt_pop v u rest pgs h)
      (fun v u rest pgs page _ h =>
        InvSt_enqueueLinks _ _ (InvSt_fetch v u rest pgs h))
      fuel _ st' ?_ hst'
    refine ⟨List.nodup_singleton _, List.nodup_nil, ?_, ?_, ?_⟩
    · intro x hx
      exact hx
    · intro x hx
      cases hx
    · intro x hx
      cases hx
  have horigin : ∀ x ∈ st'.visited,
      x = urlString baseUrl ∨
        ∃ u : Url, u.hostname = baseUrl.hostname ∧ x = cleanUrl u := by
    refine crawlLoop_preserve web baseUrl.hostname
      (fun st => ∀ x ∈ st.visited,
        x = urlString baseUrl ∨
          ∃ u : Url, u.hostname = baseUrl.hostname ∧ x = cleanUrl u)
      (fun v u rest pgs h => h)
      (fun v u rest pgs page _ h => ?_)
      fuel _ st' ?_ hst'
    · obtain ⟨new, h1, h2, h3, h4, h5, h6⟩ :=
        enqueueLinks_spec (extractInternalLinks page.links baseUrl.hostname)
          ⟨v, rest, pgs ++ [u]⟩
      intro x hx
      rw [h1] at hx
      rcases List.mem_append.mp hx with h' | h'
      · exact h x h'
      · rcases mem_extractInternalLinks page.links baseUrl.hostname x (h4 x h')
          with ⟨u', hu1, hu2⟩
        exact Or.inr ⟨u', hu1, hu2⟩
    · intro x hx
      rcases List.mem_singleton.mp hx with rfl
      exact Or.inl rfl
  refine ⟨⟨st'.visited, st'.queue⟩, st'.pages, hw, ?_, hinv.2.1, horigin, ?_⟩
  · exact crawlLoop_final web baseUrl.hostname fuel _ st' hst'
  · intro v hv
    exact horigin v (hinv.2.2.1 v hv)

theorem crawler_bounded_dedup_witness :
    1 + 2 * (allCands
      [("h://d/", ⟨[⟨"h:", "d", "/a", "", ""⟩, ⟨"h:", "e", "/x", "", ""⟩]⟩),
       ("h://d/a", ⟨[]⟩)] (Url.mk "h:" "d" "/" "" "").hostname).toFinset.card ≤ 20 ∧
    ∃ c' pages, crawlWebsite
        [("h://d/", ⟨[⟨"h:", "d", "/a", "", ""⟩, ⟨"h:", "e", "/x", "", ""⟩]⟩),
         ("h://d/a", ⟨[]⟩)] 20 Crawler.init (Url.mk "h:" "d" "/" "" "") =
        some (c', pages) ∧
      (c'.queue = [] ∨ maxPages ≤ pages.length) ∧
      pages.Nodup ∧
      (∀ v, v ∈ c'.visitedUrls →
        v = urlString (Url.mk "h:" "d" "/" "" "") ∨
          ∃ u : Url, u.hostname = (Url.mk "h:" "d" "/" "" "").hostname ∧
            v = cleanUrl u) ∧
      (∀ v, v ∈ c'.queue →
        v = urlString (Url.mk "h:" "d" "/" "" "") ∨
          ∃ u : Url, u.hostname = (Url.mk "h:" "d" "/" "" "").hostname ∧
            v = cleanUrl u) :=
  ⟨by decide,
   crawler_bounded_dedup
     [("h://d/", ⟨[⟨"h:", "d", "/a", "", ""⟩, ⟨"h:", "e", "/x", "", ""⟩]⟩),
      ("h://d/a", ⟨[]⟩)] (Url.mk "h:" "d" "/" "" "") 20 (by decide)⟩

theorem mem_addToSet_left (s : List String) (x l : String) (h : l ∈ s) :
    l ∈ addToSet s x := by
  unfold addToSet
  by_cases hx : x ∈ s
  · simpa [hx] using h
  · simp only [hx, if_false]
    exact List.mem_append_left _ h

theorem enqueueLinks_noop (links : List String) (st : CrawlSt)
    (h : ∀ l ∈ links, l ∈ st.visited) : enqueueLinks links st = st := by
  induction links with
  | nil => rfl
  | cons l ls ih =>
    have hstep : enqueueLinks (l :: ls) st = enqueueLinks ls st := by
      simp only [enqueueLinks, List.foldl_cons]
      rw [if_neg (fun hc => hc.1 (h l (List.mem_cons_self l ls)))]
    rw [hstep]
    exact ih (fun x hx => h x (List.mem_cons_of_mem l hx))

/-- C10 (amended): the module-level singleton crawler never resets its
visited set or frontier queue between crawlWebsite invocations, and the
visited set only grows: every URL in it before a crawl is still in it
afterwards.  Consequently, after a crawl that drained its queue and left
every internal link of the seed page in the visited set, a second
crawlWebsite call with the same seed re-fetches at most the seed page
itself (which is pushed without a visited check), enqueues none of its
links, and processes at most 1 page.  (After a crawl that instead hit
the 50-page cap with a non-empty leftover queue, the second call also
processes the leftovers: see the counterexample, which is what forces
the queue-drained hypothesis.) -/
theorem crawler_singleton_state_persists (web : Web) (c : Crawler)
    (baseUrl : Url) (fuel : Nat)
    (hq : c.queue = [])
    (hlinks : ∀ l ∈ ((fetchPage web (urlString baseUrl)).map
        (fun pg => extractInternalLinks pg.links baseUrl.hostname)).getD [],
      l ∈ c.visitedUrls) :
    ∀ c' pages, crawlWebsite web fuel c baseUrl = some (c', pages) →
      (∀ v ∈ c.visitedUrls, v ∈ c'.visitedUrls) ∧ pages.length ≤ 1 := by
  intro c' pages hcw
  unfold crawlWebsite at hcw
  rw [hq] at hcw
  simp only [List.nil_append] at hcw
  cases hloop : crawlLoop web baseUrl.hostname fuel
      ⟨addToSet c.visitedUrls (urlString baseUrl), [urlString baseUrl], []⟩ with
  | none =>
    rw [hloop] at hcw
    cases hcw
  | some st' =>
    rw [hloop] at hcw
    simp only [Option.map_some', Option.some.injEq] at hcw
    injection hcw with hcw1 hcw2
    have hc' : c' = ⟨st'.visited, st'.queue⟩ := hcw1.symm
    have hpages : pages = st'.pages := hcw2.symm
    constructor
    · intro v hv
      rw [hc']
      refine crawlLoop_preserve web baseUrl.hostname
        (fun st => v ∈ st.visited) (fun _ _ _ _ h => h)
        (fun v0 u rest pgs page _ h => ?_) fuel _ st'
        (mem_addToSet_left c.visitedUrls (urlString baseUrl) v hv) hloop
      obtain ⟨new, h1, _, _, _, _, _⟩ :=
        enqueueLinks_spec (extractInternalLinks page.links baseUrl.hostname)
          ⟨v0, rest, pgs ++ [u]⟩
      rw [h1]
      exact List.mem_append_left _ h
    · rw [hpages]
      cases fuel with
      | zero =>
        unfold crawlLoop at hloop
        simp [maxPages] at hloop
      | succ fuel =>
        unfold crawlLoop at hloop
        simp only [maxPages] at hloop
        rw [if_neg (by simp)] at hloop
        cases hf : fetchPage web (urlString baseUrl) with
        | none =>
          simp only [hf] at hloop
          rw [crawlLoop_done web baseUrl.hostname fuel _ rfl] at hloop
          cases hloop
          simp
        | some pg =>
          simp only [hf] at hloop
          rw [enqueueLinks_noop _ _ ?hall] at hloop
          case hall =>
            intro l hl
            apply mem_addToSet_left
            apply hlinks
            rw [hf]
            exact hl
          rw [crawlLoop_done web baseUrl.hostname fuel _ rfl] at hloop
          cases hloop
          simp

/-- A site with a seed page linking to 51 internal pages, each of which
has no links of its own. -/
def bigWeb : Web :=
  ("h://d/", ⟨(List.range 51).map
    (fun i => ⟨"h:", "d", "/" ++ toString (i + 1), "", ""⟩)⟩) ::
  (List.range 51).map (fun i => ("h://d/" ++ toString (i + 1), (⟨[]⟩ : Page)))

def seedB : Url := ⟨"h:", "d", "/", "", ""⟩

/-- C10 counterexample: on a 52-page site the first crawl from the fresh
singleton hits the 50-page cap and completes with one URL still in the
frontier queue.  A second crawlWebsite call with the same seed then
processes 3 pages, not at most 1: it pops the stale leftover URL, fetches
the seed again, and even enqueues one of the seed links (the one the
queue-length cap had kept out of the visited set on the first crawl).
The claim that after any completed crawl a second call with the same seed
processes at most 1 page and enqueues none of the seed links is false. -/
theorem crawler_second_call_counterexample :
    (crawlWebsite bigWeb 200 Crawler.init seedB).map
      (fun r => (r.2.length, r.1.queue)) = some (50, ["h://d/50"]) ∧
    ((crawlWebsite bigWeb 200 Crawler.init seedB).bind
      (fun r => crawlWebsite bigWeb 200 r.1 seedB)).map (fun r => r.2.length) =
      some 3 ∧
    ¬(3 ≤ 1) :=
  ⟨by decide, by decide, by decide⟩

theorem crawler_singleton_state_persists_witness :
    (∀ v ∈ (Crawler.mk ["h://s/a"] []).visitedUrls,
      v ∈ (Crawler.mk ["h://s/a", "h://s/"] []).visitedUrls) ∧
    (["h://s/"] : List String).length ≤ 1 :=
  crawler_singleton_state_persists
    [("h://s/", ⟨[⟨"h:", "s", "/a", "", ""⟩]⟩), ("h://s/a", (⟨[]⟩ : Page))]
    (Crawler.mk ["h://s/a"] []) (Url.mk "h:" "s" "/" "" "") 10 rfl (by decide)
    (Crawler.mk ["h://s/a", "h://s/"] []) ["h://s/"] (by decide)
